import Mathlib

/-!
Verification of the record-cleaning transformer in
`Problem Set: Working with MongoDB/Quiz 1: Preparing Data/processing.py`.

Strings are modelled as `List Char`.  A raw row is an ordered association
list from source column name to raw cell value (the iteration order of the
row's columns is the list order).  The cleaned record is an ordered
association list from canonical field name to cleaned value, where a value
is a string, an ordered sequence of strings, the absent-value marker
(Python `None`), or a nested mapping (the `classification` dictionary).
A Python `KeyError` (reading `temp["label"]` before it is set) is modelled
by the whole computation returning `none`.
-/

namespace Processing

abbrev Str := List Char

/-- Cleaned values: a string, an array of strings, Python `None`, or a
nested dictionary (used for the `classification` sub-mapping). -/
inductive Val where
  | str : Str → Val
  | arr : List Str → Val
  | null : Val
  | dict : List (String × Val) → Val

/-- The `FIELDS` mapping of `processing.py`: source column name to
canonical output field name, as an association list. -/
def FIELDS : List (String × String) :=
  [("rdf-schema#label", "label"),
   ("URI", "uri"),
   ("rdf-schema#comment", "description"),
   ("synonym", "synonym"),
   ("name", "name"),
   ("family_label", "family"),
   ("class_label", "class"),
   ("phylum_label", "phylum"),
   ("order_label", "order"),
   ("kingdom_label", "kingdom"),
   ("genus_label", "genus")]

/-- The `CLASSIFICATION` list of `processing.py`: canonical field names
that are nested under the `classification` key. -/
def CLASSIFICATION : List String :=
  ["family", "class", "phylum", "order", "kingdom", "genus"]

/-- The literal placeholder string "NULL". -/
def nullString : Str := "NULL".toList

/-- Association-list lookup (Python dictionary read `m[k]`, as an option). -/
def alookup {α : Type} : List (String × α) → String → Option α
  | [], _ => none
  | (k, v) :: rest, key => if k = key then some v else alookup rest key

/-- Association-list update (Python dictionary write `m[k] = v`):
overwrites an existing binding in place, otherwise appends. -/
def setKey {α : Type} : List (String × α) → String → α → List (String × α)
  | [], k, v => [(k, v)]
  | (k2, w) :: rest, k, v =>
      if k2 = k then (k, v) :: rest else (k2, w) :: setKey rest k v

/-- Lookup of a source column in `FIELDS` (the `element in process_fields`
test together with the `FIELDS[element]` read). -/
def lookupF (col : String) : Option String := alookup FIELDS col

/-- The source column names accepted by the transformer. -/
def fieldsKeys : List String := FIELDS.map Prod.fst

/-- The six characters removed by Python 2 `str.strip()`. -/
def isPySpace (c : Char) : Bool :=
  c == ' ' || c == '\t' || c == '\n' || c == '\r' || c == '\x0b' || c == '\x0c'

/-- Python `value.strip()`: remove leading and trailing whitespace. -/
def pstrip (s : Str) : Str :=
  ((s.dropWhile isPySpace).reverse.dropWhile isPySpace).reverse

/-- The word-character class `\w` of the Python 2 `str` regexes used by the
source: ASCII alphanumeric or underscore. -/
def isWordChar (c : Char) : Bool := c.isAlphanum || c == '_'

/-- `re.search(r"[\W]", s)` of `process_name`: does `s` contain any
character that is not a word character? -/
def hasNonWord (s : Str) : Bool := s.any fun c => !(isWordChar c)

/-- Split a string into its maximal leading run of word characters and the
remainder (the greedy `[\w]+` step of the label regex). -/
def wordRun : Str → Str × Str
  | [] => ([], [])
  | c :: rest =>
      if isWordChar c then
        let p := wordRun rest
        (c :: p.1, p.2)
      else ([], c :: rest)

/-- Fuelled scanner for `re.sub(r"\([\w]+\)", "", value)`: at each position,
if an open parenthesis is followed by a nonempty run of word characters and
then a close parenthesis, the whole match is deleted and scanning resumes
after it; otherwise the character is kept.  The fuel only needs to cover
the length of the string. -/
def rdfGo : Nat → Str → Str
  | _, [] => []
  | 0, s => s
  | Nat.succ n, c :: rest =>
      if c = '(' ∧ (wordRun rest).1 ≠ [] ∧ (wordRun rest).2.head? = some ')' then
        rdfGo n (wordRun rest).2.tail
      else
        c :: rdfGo n rest

/-- `process_rdf` of `processing.py`: delete every occurrence of the
pattern "open-paren, one or more word characters, close-paren". -/
def process_rdf (s : Str) : Str := rdfGo s.length s

/-- Does the pattern `\([\w]+\)` match at the head of the string? -/
def headMatchB : Str → Bool
  | [] => false
  | c :: rest =>
      if c = '(' ∧ (wordRun rest).1 ≠ [] ∧ (wordRun rest).2.head? = some ')' then
        true
      else false

/-- Does the pattern `\([\w]+\)` match anywhere in the string? -/
def hasParenMatch : Str → Bool
  | [] => false
  | c :: rest => headMatchB (c :: rest) || hasParenMatch rest

/-- `process_name` of `processing.py`: if the raw name is "NULL" or
contains a non-word character, the (already cleaned) label replaces it. -/
def process_name (value label : Str) : Str :=
  if value = nullString ∨ hasNonWord value = true then label else value

/-- Python `s.replace(a, "")` for a single-character pattern: delete every
occurrence of the character. -/
def pyRemoveChar (s : Str) (a : Char) : Str := s.filter fun c => !(c == a)

/-- Python `s.split("|")`: split on every occurrence of the delimiter;
the result always has at least one element (`"".split("|") == [""]`). -/
def splitBar : Str → List Str
  | [] => [[]]
  | c :: rest =>
      if c = '|' then [] :: splitBar rest
      else
        match splitBar rest with
        | [] => [[c]]
        | h :: t => (c :: h) :: t

/-- `process_synonym` of `processing.py`: delete `{`, `}` and `*`, strip
whitespace, then split on `|`. -/
def process_synonym (value : Str) : List Str :=
  splitBar (pstrip (pyRemoveChar (pyRemoveChar (pyRemoveChar value '{') '}') '*'))

/-- The per-column dispatch of the loop body of `process_file`
(lines 118-127): label regex-clean then strip; name resolution reading
`temp["label"]` (a missing label is the Python `KeyError`, modelled as
`none`); the "NULL"-to-`None` conversion; synonym splitting; otherwise a
plain strip. -/
def cleanField (col : String) (raw : Str) (temp : List (String × Val)) : Option Val :=
  if col = "rdf-schema#label" then
    some (Val.str (pstrip (process_rdf raw)))
  else if col = "name" then
    match alookup temp "label" with
    | some (Val.str l) => some (Val.str (pstrip (process_name raw l)))
    | _ => none
  else if raw = nullString then
    some Val.null
  else if col = "synonym" then
    some (Val.arr (process_synonym raw))
  else
    some (Val.str (pstrip raw))

/-- The column loop of `process_file`: walk the row's columns in iteration
order, clean each mapped column, and route the cleaned value into the
`classification` mapping or the top-level record. -/
def processCols :
    List (String × Str) → List (String × Val) → List (String × Val) →
      Option (List (String × Val) × List (String × Val))
  | [], temp, cls => some (temp, cls)
  | (col, raw) :: rest, temp, cls =>
      match lookupF col with
      | none => processCols rest temp cls
      | some o =>
          match cleanField col raw temp with
          | none => none
          | some v =>
              if o ∈ CLASSIFICATION then processCols rest temp (setKey cls o v)
              else processCols rest (setKey temp o v) cls

/-- One iteration of the row loop of `process_file`: build `temp` and
`classification` from the row, then attach the `classification` mapping. -/
def processRow (row : List (String × Str)) : Option (List (String × Val)) :=
  match processCols row [] [] with
  | none => none
  | some (temp, cls) => some (setKey temp "classification" (Val.dict cls))

/-- `process_file` restricted to its in-scope core: transform the already
tokenized sequence of rows; any row failure aborts the whole transform. -/
def process_file : List (List (String × Str)) → Option (List (List (String × Val)))
  | [] => some []
  | r :: rs =>
      match processRow r, process_file rs with
      | some t, some ts => some (t :: ts)
      | _, _ => none

/-- Sample row used by witnesses: a generic field and a classification
field. -/
def sampleRow : List (String × Str) :=
  [("URI", "u1".toList), ("kingdom_label", "Animal".toList)]

/-- Sample two-row input used by the row-mapping witness. -/
def sampleRows : List (List (String × Str)) := [sampleRow, [("family_label", "Orb".toList)]]

/-- The output produced from `sampleRows`. -/
def sampleOuts : List (List (String × Val)) :=
  [[("uri", Val.str ("u1".toList)),
    ("classification", Val.dict [("kingdom", Val.str ("Animal".toList))])],
   [("classification", Val.dict [("family", Val.str ("Orb".toList))])]]

/-- The record produced from `sampleRow`. -/
def sampleRec : List (String × Val) :=
  [("uri", Val.str ("u1".toList)),
   ("classification", Val.dict [("kingdom", Val.str ("Animal".toList))])]

/-- Second sample row, with only a classification column. -/
def sampleRow2 : List (String × Str) := [("family_label", "Orb".toList)]

/-- The record produced from `sampleRow2`. -/
def sampleRec2 : List (String × Val) :=
  [("classification", Val.dict [("family", Val.str ("Orb".toList))])]

lemma alookup_setKey_self {α : Type} (m : List (String × α)) (k : String) (v : α) :
    alookup (setKey m k v) k = some v := by
  induction m with
  | nil => simp [setKey, alookup]
  | cons kv rest ih =>
      obtain ⟨k2, w⟩ := kv
      by_cases h : k2 = k <;> simp [setKey, h, alookup, ih]

lemma alookup_setKey_ne {α : Type} {m : List (String × α)} {k k2 : String} {v : α}
    (h : ¬ k2 = k) : alookup (setKey m k v) k2 = alookup m k2 := by
  have hk : ¬ k = k2 := fun he => h he.symm
  induction m with
  | nil => simp [setKey, alookup, hk]
  | cons kv rest ih =>
      obtain ⟨k3, w⟩ := kv
      by_cases h3 : k3 = k
      · subst h3
        simp [setKey, alookup, hk]
      · simp [setKey, alookup, h3, ih]

lemma isSome_alookup_setKey {α : Type} {m : List (String × α)} {k k2 : String} {v : α}
    (h : (alookup m k2).isSome = true) : (alookup (setKey m k v) k2).isSome = true := by
  by_cases he : k2 = k
  · subst he; simp [alookup_setKey_self]
  · rwa [alookup_setKey_ne he]

lemma alookup_mem_snd {α : Type} :
    ∀ {m : List (String × α)} {k : String} {v : α},
      alookup m k = some v → v ∈ m.map Prod.snd := by
  intro m
  induction m with
  | nil => intro k v h; simp [alookup] at h
  | cons kv rest ih =>
      intro k v h
      obtain ⟨k2, w⟩ := kv
      by_cases he : k2 = k
      · simp [alookup, he] at h
        simp [h]
      · simp [alookup, he] at h
        simp [ih h]

lemma lookupF_ne_classification {col o : String} (h : lookupF col = some o) :
    ¬ o = "classification" := by
  have hm := alookup_mem_snd h
  fin_cases hm <;> simp

lemma head?_dropWhile_false {p : Char → Bool} {l : Str} {c : Char}
    (h : (l.dropWhile p).head? = some c) : p c = false := by
  have hm := List.head?_dropWhile_not p l
  rw [h] at hm
  exact hm

lemma dropWhile_eq_self_of_head {p : Char → Bool} {l : Str}
    (h : ∀ c, l.head? = some c → p c = false) : l.dropWhile p = l := by
  cases l with
  | nil => rfl
  | cons c rest => simp [List.dropWhile_cons, h c rfl]

lemma getLast?_dropWhile {p : Char → Bool} {l : Str} (h : ¬ l.dropWhile p = []) :
    (l.dropWhile p).getLast? = l.getLast? := by
  have happ :
      ((l.takeWhile p) ++ (l.dropWhile p)).getLast? =
        (l.dropWhile p).getLast?.or (l.takeWhile p).getLast? := List.getLast?_append
  rw [List.takeWhile_append_dropWhile] at happ
  rw [happ]
  rcases e : (l.dropWhile p).getLast? with _ | c
  · rw [List.getLast?_eq_none_iff] at e
    exact absurd e h
  · rfl

lemma mem_pstrip {c : Char} {s : Str} (h : c ∈ pstrip s) : c ∈ s := by
  unfold pstrip at h
  rw [List.mem_reverse] at h
  have h1 := (List.dropWhile_sublist isPySpace).subset h
  rw [List.mem_reverse] at h1
  exact (List.dropWhile_sublist isPySpace).subset h1

lemma pstrip_of_all_space {s : Str} (h : ∀ c ∈ s, isPySpace c = true) :
    pstrip s = [] := by
  unfold pstrip
  rw [List.dropWhile_eq_nil_iff.mpr h]
  rfl

lemma pstrip_idem (s : Str) : pstrip (pstrip s) = pstrip s := by
  have hps : pstrip s = ((s.dropWhile isPySpace).reverse.dropWhile isPySpace).reverse := rfl
  rcases hu : (s.dropWhile isPySpace).reverse.dropWhile isPySpace with _ | ⟨c0, u2⟩
  · rw [hps, hu]
    rfl
  · have hu_ne : ¬ (s.dropWhile isPySpace).reverse.dropWhile isPySpace = [] := by
      rw [hu]; simp
    have hhead :
        ∀ c, ((s.dropWhile isPySpace).reverse.dropWhile isPySpace).head? = some c →
          isPySpace c = false := fun c hc => head?_dropWhile_false hc
    have hlast :
        ∀ c, ((s.dropWhile isPySpace).reverse.dropWhile isPySpace).getLast? = some c →
          isPySpace c = false := by
      intro c hc
      rw [getLast?_dropWhile hu_ne] at hc
      rw [← List.head?_reverse, List.reverse_reverse] at hc
      exact head?_dropWhile_false hc
    have e1 :
        (((s.dropWhile isPySpace).reverse.dropWhile isPySpace).reverse).dropWhile isPySpace =
          ((s.dropWhile isPySpace).reverse.dropWhile isPySpace).reverse :=
      dropWhile_eq_self_of_head (by
        intro c hc
        rw [List.head?_reverse] at hc
        exact hlast c hc)
    have e2 :
        ((s.dropWhile isPySpace).reverse.dropWhile isPySpace).dropWhile isPySpace =
          (s.dropWhile isPySpace).reverse.dropWhile isPySpace :=
      dropWhile_eq_self_of_head hhead
    rw [hps]
    unfold pstrip
    rw [e1, List.reverse_reverse, e2]

lemma wordRun_snd_length_le (s : Str) : (wordRun s).2.length ≤ s.length := by
  induction s with
  | nil => simp [wordRun]
  | cons c rest ih =>
      by_cases h : isWordChar c
      · simp only [wordRun, h, if_pos]
        exact Nat.le_succ_of_le ih
      · simp [wordRun, h]

lemma wordRun_append {w r : Str} (hw : ∀ c ∈ w, isWordChar c = true)
    (hr : ∀ c, r.head? = some c → isWordChar c = false) :
    wordRun (w ++ r) = (w, r) := by
  induction w with
  | nil =>
      cases r with
      | nil => rfl
      | cons c rest => simp [wordRun, hr c rfl]
  | cons c w2 ih =>
      have hc : isWordChar c = true := hw c (by simp)
      have ih2 := ih (fun d hd => hw d (by simp [hd]))
      simp [wordRun, hc, ih2]

lemma rdfGo_fuel :
    ∀ (n : Nat) (m : Nat) (s : Str), s.length ≤ n → s.length ≤ m →
      rdfGo n s = rdfGo m s := by
  intro n
  induction n with
  | zero =>
      intro m s hn _
      have : s = [] := List.length_eq_zero.mp (Nat.le_zero.mp hn)
      subst this
      cases m <;> rfl
  | succ n ih =>
      intro m s hn hm
      cases s with
      | nil => cases m <;> rfl
      | cons c rest =>
          cases m with
          | zero => exact absurd hm (by simp)
          | succ m2 =>
              have hrest_n : rest.length ≤ n := Nat.le_of_succ_le_succ hn
              have hrest_m : rest.length ≤ m2 := Nat.le_of_succ_le_succ hm
              show rdfGo (Nat.succ n) (c :: rest) = rdfGo (Nat.succ m2) (c :: rest)
              by_cases hc :
                  c = '(' ∧ (wordRun rest).1 ≠ [] ∧ (wordRun rest).2.head? = some ')'
              · have e1 : rdfGo (Nat.succ n) (c :: rest) =
                    rdfGo n ((wordRun rest).2.tail) := by
                  show (if c = '(' ∧ (wordRun rest).1 ≠ [] ∧
                      (wordRun rest).2.head? = some ')' then
                    rdfGo n ((wordRun rest).2.tail) else c :: rdfGo n rest) = _
                  rw [if_pos hc]
                have e2 : rdfGo (Nat.succ m2) (c :: rest) =
                    rdfGo m2 ((wordRun rest).2.tail) := by
                  show (if c = '(' ∧ (wordRun rest).1 ≠ [] ∧
                      (wordRun rest).2.head? = some ')' then
                    rdfGo m2 ((wordRun rest).2.tail) else c :: rdfGo m2 rest) = _
                  rw [if_pos hc]
                have htail : ((wordRun rest).2.tail).length ≤ rest.length := by
                  have h1 := wordRun_snd_length_le rest
                  have h2 : ((wordRun rest).2.tail).length ≤ (wordRun rest).2.length := by
                    rw [List.length_tail]
                    exact Nat.sub_le _ _
                  exact Nat.le_trans h2 h1
                rw [e1, e2]
                exact ih m2 ((wordRun rest).2.tail) (Nat.le_trans htail hrest_n)
                  (Nat.le_trans htail hrest_m)
              · have e1 : rdfGo (Nat.succ n) (c :: rest) = c :: rdfGo n rest := by
                  show (if c = '(' ∧ (wordRun rest).1 ≠ [] ∧
                      (wordRun rest).2.head? = some ')' then
                    rdfGo n ((wordRun rest).2.tail) else c :: rdfGo n rest) = _
                  rw [if_neg hc]
                have e2 : rdfGo (Nat.succ m2) (c :: rest) = c :: rdfGo m2 rest := by
                  show (if c = '(' ∧ (wordRun rest).1 ≠ [] ∧
                      (wordRun rest).2.head? = some ')' then
                    rdfGo m2 ((wordRun rest).2.tail) else c :: rdfGo m2 rest) = _
                  rw [if_neg hc]
                rw [e1, e2, ih m2 rest hrest_n hrest_m]

lemma process_rdf_nil : process_rdf [] = [] := rfl

lemma process_rdf_cons (c : Char) (rest : Str) :
    process_rdf (c :: rest) =
      if c = '(' ∧ (wordRun rest).1 ≠ [] ∧ (wordRun rest).2.head? = some ')' then
        process_rdf ((wordRun rest).2.tail)
      else c :: process_rdf rest := by
  have h0 : process_rdf (c :: rest) =
      if c = '(' ∧ (wordRun rest).1 ≠ [] ∧ (wordRun rest).2.head? = some ')' then
        rdfGo rest.length ((wordRun rest).2.tail)
      else c :: rdfGo rest.length rest := rfl
  rw [h0]
  have htail : ((wordRun rest).2.tail).length ≤ rest.length := by
    have h1 := wordRun_snd_length_le rest
    have h2 : ((wordRun rest).2.tail).length ≤ (wordRun rest).2.length := by
      rw [List.length_tail]
      exact Nat.sub_le _ _
    exact Nat.le_trans h2 h1
  by_cases hc : c = '(' ∧ (wordRun rest).1 ≠ [] ∧ (wordRun rest).2.head? = some ')'
  · rw [if_pos hc, if_pos hc]
    exact rdfGo_fuel rest.length ((wordRun rest).2.tail).length ((wordRun rest).2.tail)
      htail (Nat.le_refl _)
  · rw [if_neg hc, if_neg hc]
    rfl

lemma process_rdf_of_no_match {v : Str} (h : hasParenMatch v = false) :
    process_rdf v = v := by
  induction v with
  | nil => rfl
  | cons c rest ih =>
      have hsplit : headMatchB (c :: rest) = false ∧ hasParenMatch rest = false := by
        have h2 : (headMatchB (c :: rest) || hasParenMatch rest) = false := h
        exact ⟨by simpa using (Bool.or_eq_false_iff.mp h2).1,
               (Bool.or_eq_false_iff.mp h2).2⟩
      have hcond :
          ¬ (c = '(' ∧ (wordRun rest).1 ≠ [] ∧ (wordRun rest).2.head? = some ')') := by
        intro hcc
        have : headMatchB (c :: rest) = true := by
          show (if c = '(' ∧ (wordRun rest).1 ≠ [] ∧ (wordRun rest).2.head? = some ')'
            then true else false) = true
          rw [if_pos hcc]
        rw [this] at hsplit
        exact absurd hsplit.1 (by simp)
      rw [process_rdf_cons, if_neg hcond, ih hsplit.2]

lemma process_rdf_append_no_open {pre : Str} (rest : Str) (h : ¬ '(' ∈ pre) :
    process_rdf (pre ++ rest) = pre ++ process_rdf rest := by
  induction pre with
  | nil => rfl
  | cons c pre2 ih =>
      have hc : ¬ c = '(' := by
        intro he
        exact h (by simp [he])
      have hcond :
          ¬ (c = '(' ∧ (wordRun (pre2 ++ rest)).1 ≠ [] ∧
            (wordRun (pre2 ++ rest)).2.head? = some ')') := fun hcc => hc hcc.1
      rw [List.cons_append, process_rdf_cons, if_neg hcond,
        ih (fun hm => h (by simp [hm]))]
      rfl

lemma process_rdf_delete_head {w : Str} (rest : Str) (hne : w ≠ [])
    (hw : ∀ c ∈ w, isWordChar c = true) :
    process_rdf ('(' :: (w ++ ')' :: rest)) = process_rdf rest := by
  have hwr : wordRun (w ++ ')' :: rest) = (w, ')' :: rest) :=
    wordRun_append hw (by
      intro c hc
      have : c = ')' := by simpa using hc.symm
      subst this
      rfl)
  rw [process_rdf_cons]
  rw [hwr]
  rw [if_pos ⟨rfl, hne, rfl⟩]
  rfl

lemma splitBar_ne_nil (s : Str) : ¬ splitBar s = [] := by
  induction s with
  | nil => simp [splitBar]
  | cons c rest ih =>
      by_cases hc : c = '|'
      · simp [splitBar, hc]
      · rcases e : splitBar rest with _ | ⟨h0, t0⟩
        · simp [splitBar, hc, e]
        · simp [splitBar, hc, e]

lemma splitBar_length (s : Str) : (splitBar s).length = s.count '|' + 1 := by
  induction s with
  | nil => simp [splitBar]
  | cons c rest ih =>
      by_cases hc : c = '|'
      · subst hc
        simp [splitBar, List.count_cons, ih]
      · rcases e : splitBar rest with _ | ⟨h0, t0⟩
        · exact absurd e (splitBar_ne_nil rest)
        · have : (splitBar (c :: rest)).length = (splitBar rest).length := by
            simp [splitBar, hc, e]
          rw [this, ih, List.count_cons]
          have hbeq : ¬ (c == '|') = true := by simpa using hc
          simp [hbeq]

lemma processCols_preserve :
    ∀ (cols : List (String × Str)) (temp cls t2 c2 : List (String × Val)) (k : String),
      processCols cols temp cls = some (t2, c2) →
      ((alookup temp k).isSome = true → (alookup t2 k).isSome = true) ∧
      ((alookup cls k).isSome = true → (alookup c2 k).isSome = true) := by
  intro cols
  induction cols with
  | nil =>
      intro temp cls t2 c2 k h
      simp [processCols] at h
      obtain ⟨h1, h2⟩ := h
      subst h1; subst h2
      exact ⟨id, id⟩
  | cons cr rest ih =>
      intro temp cls t2 c2 k h
      obtain ⟨col, raw⟩ := cr
      simp only [processCols] at h
      rcases e1 : lookupF col with _ | o
      · rw [e1] at h
        exact ih temp cls t2 c2 k h
      · rw [e1] at h
        rcases e2 : cleanField col raw temp with _ | v
        · rw [e2] at h
          simp at h
        · rw [e2] at h
          dsimp only at h
          by_cases ho : o ∈ CLASSIFICATION
          · rw [if_pos ho] at h
            have hr := ih temp (setKey cls o v) t2 c2 k h
            exact ⟨hr.1, fun hk => hr.2 (isSome_alookup_setKey hk)⟩
          · rw [if_neg ho] at h
            have hr := ih (setKey temp o v) cls t2 c2 k h
            exact ⟨fun hk => hr.1 (isSome_alookup_setKey hk), hr.2⟩

lemma processCols_mem :
    ∀ (cols : List (String × Str)) (temp cls t2 c2 : List (String × Val))
      (col : String) (raw : Str) (o : String),
      (col, raw) ∈ cols → lookupF col = some o →
      processCols cols temp cls = some (t2, c2) →
      (o ∈ CLASSIFICATION → (alookup c2 o).isSome = true) ∧
      (¬ o ∈ CLASSIFICATION → (alookup t2 o).isSome = true) := by
  intro cols
  induction cols with
  | nil =>
      intro temp cls t2 c2 col raw o hmem
      simp at hmem
  | cons cr rest ih =>
      intro temp cls t2 c2 col raw o hmem hlf h
      obtain ⟨col2, raw2⟩ := cr
      simp only [processCols] at h
      rcases List.mem_cons.mp hmem with hhd | htl
      · rw [Prod.mk.injEq] at hhd
        obtain ⟨he1, he2⟩ := hhd
        subst he1; subst he2
        rw [hlf] at h
        rcases e2 : cleanField col raw temp with _ | v
        · rw [e2] at h
          simp at h
        · rw [e2] at h
          dsimp only at h
          by_cases ho : o ∈ CLASSIFICATION
          · rw [if_pos ho] at h
            refine ⟨fun _ => ?_, fun hno => absurd ho hno⟩
            exact (processCols_preserve rest temp (setKey cls o v) t2 c2 o h).2
              (by rw [alookup_setKey_self]; rfl)
          · rw [if_neg ho] at h
            refine ⟨fun hyes => absurd hyes ho, fun _ => ?_⟩
            exact (processCols_preserve rest (setKey temp o v) cls t2 c2 o h).1
              (by rw [alookup_setKey_self]; rfl)
      · rcases e1 : lookupF col2 with _ | o2
        · rw [e1] at h
          exact ih temp cls t2 c2 col raw o htl hlf h
        · rw [e1] at h
          rcases e2 : cleanField col2 raw2 temp with _ | v
          · rw [e2] at h
            simp at h
          · rw [e2] at h
            dsimp only at h
            by_cases ho : o2 ∈ CLASSIFICATION
            · rw [if_pos ho] at h
              exact ih temp (setKey cls o2 v) t2 c2 col raw o htl hlf h
            · rw [if_neg ho] at h
              exact ih (setKey temp o2 v) cls t2 c2 col raw o htl hlf h

example : processRow sampleRow = some sampleRec := rfl

example : processRow sampleRow2 = some sampleRec2 := rfl

example : process_rdf ("Argiope (spider)".toList) = "Argiope ".toList := rfl

example : process_rdf ("(a b)".toList) = "(a b)".toList := rfl

example : process_synonym ("a|b".toList) = ["a".toList, "b".toList] := rfl

example : process_synonym (['.']) = [['.']] := rfl

example :
    processRow [("name", ("x".toList)), ("rdf-schema#label", ("x".toList))] = none := rfl

/-- C1: the claim says the label field is resolved before the name field for
every iteration order of a row's columns, so the missing-label lookup never
fails.  The code iterates the row's columns in whatever order the row
dictionary yields them and reads `temp["label"]` inside the name branch: if
the name column is iterated before the label column, the lookup fails (a
`KeyError`, modelled as `none`), while the reverse order succeeds. -/
theorem c1_name_before_label_keyerror :
    processRow [("name", ("Argiope".toList)), ("rdf-schema#label", ("Argiope".toList))] =
      none ∧
    (processRow [("rdf-schema#label", ("Argiope".toList)),
      ("name", ("Argiope".toList))]).isSome = true := ⟨rfl, rfl⟩

/-- C2 counterexample: a label-source raw value equal to "NULL" is preserved
verbatim in the output record (the label branch of the dispatch runs before
the "NULL" conversion), contradicting the claim that "NULL" placeholders
are never preserved verbatim. -/
theorem c2_label_null_preserved :
    processRow [("rdf-schema#label", nullString)] =
      some [("label", Val.str nullString), ("classification", Val.dict [])] ∧
    ¬ Val.str nullString = Val.null :=
  ⟨rfl, fun h => Val.noConfusion h⟩

/-- C2 (amended): for every mapped field other than the label source, a raw
cell value equal to "NULL" is never preserved verbatim: the name field
yields the (trimmed) already-cleaned label, every other field yields the
absent-value marker. -/
theorem c2_null_converted_except_label (col : String) (temp : List (String × Val))
    (l : Str) (hmem : col ∈ fieldsKeys) (hcol : ¬ col = "rdf-schema#label")
    (hl : alookup temp "label" = some (Val.str l)) :
    cleanField col nullString temp =
      some (if col = "name" then Val.str (pstrip l) else Val.null) := by
  unfold cleanField
  rw [if_neg hcol]
  by_cases hn : col = "name"
  · subst hn
    rw [if_pos rfl, if_pos rfl, hl]
    dsimp only
    rw [process_name, if_pos (Or.inl rfl)]
  · rw [if_neg hn, if_pos rfl, if_neg hn]

/-- C2 witness: a generic field converts "NULL" to the absent marker, the
name field substitutes the cleaned label. -/
theorem c2_null_converted_witness :
    cleanField "URI" nullString [("label", Val.str ("x".toList))] = some Val.null ∧
    cleanField "name" nullString [("label", Val.str ("x".toList))] =
      some (Val.str ("x".toList)) := by
  constructor
  · have h := c2_null_converted_except_label "URI" [("label", Val.str ("x".toList))]
      ("x".toList) (by decide) (by decide) rfl
    rw [h]
    rfl
  · have h := c2_null_converted_except_label "name" [("label", Val.str ("x".toList))]
      ("x".toList) (by decide) (by decide) rfl
    rw [h]
    rfl

/-- C3 counterexample: a synonym-source raw value equal to "NULL" is caught
by the "NULL" conversion before the synonym branch, so its cleaned result is
the absent-value marker, not a sequence of strings as the claim states. -/
theorem c3_synonym_null_gives_absent :
    processRow [("synonym", nullString)] =
      some [("synonym", Val.null), ("classification", Val.dict [])] ∧
    ¬ Val.null = Val.arr (process_synonym nullString) :=
  ⟨rfl, fun h => Val.noConfusion h⟩

/-- C3 (amended): for every synonym-source raw value other than the literal
"NULL" (which yields the absent-value marker instead), the cleaned result is
the non-empty ordered sequence obtained by removing every brace and star
character from anywhere in the string, trimming whitespace, then splitting
on the bar delimiter; a raw value with no bar yields a one-element sequence
(never a bare string, by construction of the `Val.arr` constructor). -/
theorem c3_synonym_sequence (raw : Str) (temp : List (String × Val))
    (h : ¬ raw = nullString) :
    cleanField "synonym" raw temp = some (Val.arr (process_synonym raw)) ∧
    process_synonym raw =
      splitBar (pstrip (raw.filter (fun c => !(c == '{' || c == '}' || c == '*')))) ∧
    ¬ process_synonym raw = [] ∧
    (¬ '|' ∈ raw → (process_synonym raw).length = 1) := by
  refine ⟨?_, ?_, ?_, ?_⟩
  · unfold cleanField
    rw [if_neg (by decide), if_neg (by decide), if_neg h, if_pos rfl]
  · unfold process_synonym pyRemoveChar
    rw [List.filter_filter, List.filter_filter]
    have hpt :
        List.filter
          (fun a => !(a == '*') && !(a == '}') && !(a == '{')) raw =
        List.filter (fun c => !(c == '{' || c == '}' || c == '*')) raw := by
      apply List.filter_congr
      intro a _
      cases h1 : a == '{' <;> cases h2 : a == '}' <;> cases h3 : a == '*' <;>
        simp [h1, h2, h3]
    rw [hpt]
  · exact splitBar_ne_nil _
  · intro hb
    have hcount :
        (pstrip (pyRemoveChar (pyRemoveChar (pyRemoveChar raw '{') '}') '*')).count '|'
          = 0 := by
      rw [List.count_eq_zero]
      intro hmem2
      have h1 := mem_pstrip hmem2
      have h2 := (List.mem_filter.mp h1).1
      have h3 := (List.mem_filter.mp h2).1
      have h4 := (List.mem_filter.mp h3).1
      exact hb h4
    show (splitBar
      (pstrip (pyRemoveChar (pyRemoveChar (pyRemoveChar raw '{') '}') '*'))).length = 1
    rw [splitBar_length, hcount]

/-- C3 witness: a single synonym with no delimiter yields a one-element
sequence. -/
theorem c3_synonym_sequence_witness :
    cleanField "synonym" ("Cyrene".toList) [] =
      some (Val.arr [("Cyrene".toList)]) ∧
    (process_synonym ("Cyrene".toList)).length = 1 := by
  have h := c3_synonym_sequence ("Cyrene".toList) [] (by decide)
  constructor
  · rw [h.1]
    rfl
  · exact h.2.2.2 (by decide)

/-- C4: for every name-source raw value, if it equals "NULL" or contains a
character that is neither alphanumeric nor underscore, the cleaned name is
the row's already-cleaned label; otherwise it is the raw value; in both
cases with whitespace trimmed. -/
theorem c4_name_resolution (lraw nraw : Str) :
    ∃ rec, processRow [("rdf-schema#label", lraw), ("name", nraw)] = some rec ∧
      alookup rec "label" = some (Val.str (pstrip (process_rdf lraw))) ∧
      alookup rec "name" =
        some (Val.str (if nraw = nullString ∨ hasNonWord nraw = true
          then pstrip (process_rdf lraw) else pstrip nraw)) := by
  refine ⟨[("label", Val.str (pstrip (process_rdf lraw))),
    ("name", Val.str (pstrip (process_name nraw (pstrip (process_rdf lraw))))),
    ("classification", Val.dict [])], rfl, rfl, ?_⟩
  show some (Val.str (pstrip (process_name nraw (pstrip (process_rdf lraw))))) = _
  by_cases hc : nraw = nullString ∨ hasNonWord nraw = true
  · rw [process_name, if_pos hc, if_pos hc, pstrip_idem]
  · rw [process_name, if_neg hc, if_neg hc]

/-- C5: the cleaned label is the raw value with every substring matching
"open-paren, one or more word characters, close-paren" deleted and then
trimmed; a parenthetical group containing a space or punctuation never
matches, so a string with no match anywhere is left untouched, while a
match is deleted wherever it occurs. -/
theorem c5_label_cleaning (v pre w rest : Str) :
    (∃ rec, processRow [("rdf-schema#label", v)] = some rec ∧
      alookup rec "label" = some (Val.str (pstrip (process_rdf v)))) ∧
    (hasParenMatch v = false → process_rdf v = v) ∧
    (¬ '(' ∈ pre → process_rdf (pre ++ rest) = pre ++ process_rdf rest) ∧
    (w ≠ [] → (∀ c ∈ w, isWordChar c = true) →
      process_rdf ('(' :: (w ++ ')' :: rest)) = process_rdf rest) :=
  ⟨⟨[("label", Val.str (pstrip (process_rdf v))), ("classification", Val.dict [])],
    rfl, rfl⟩,
   process_rdf_of_no_match,
   fun h => process_rdf_append_no_open rest h,
   fun h1 h2 => process_rdf_delete_head rest h1 h2⟩

/-- C5 witness: "(spider)" is deleted after the untouched prefix, while a
parenthetical containing a space is left untouched. -/
theorem c5_label_cleaning_witness :
    process_rdf ("Argiope (spider)".toList) = "Argiope ".toList ∧
    process_rdf ("(a b)".toList) = "(a b)".toList := by
  constructor
  · have hA := (c5_label_cleaning [] ("Argiope ".toList) [] ("(spider)".toList)).2.2.1
      (by decide)
    have hB := (c5_label_cleaning [] [] ("spider".toList) []).2.2.2
      (by decide) (by decide)
    have e1 : "Argiope (spider)".toList = "Argiope ".toList ++ "(spider)".toList := rfl
    have e2 : "(spider)".toList = '(' :: ("spider".toList ++ ')' :: []) := rfl
    rw [e1, hA, e2, hB]
    rfl
  · exact (c5_label_cleaning ("(a b)".toList) [] [] []).2.1 (by decide)

/-- C6: every record produced from a row has a `classification` key bound
to a mapping (possibly empty), and every mapped column of the row is routed
by its canonical name: into the classification mapping when the name is a
classification field, into the top level of the record otherwise. -/
theorem c6_classification_routing (row : List (String × Str))
    (rec : List (String × Val)) (h : processRow row = some rec) :
    ∃ m, alookup rec "classification" = some (Val.dict m) ∧
      ∀ col raw o, (col, raw) ∈ row → lookupF col = some o →
        (o ∈ CLASSIFICATION → (alookup m o).isSome = true) ∧
        (¬ o ∈ CLASSIFICATION → (alookup rec o).isSome = true) := by
  unfold processRow at h
  rcases e : processCols row [] [] with _ | ⟨temp, cls⟩
  · rw [e] at h
    exact absurd h (by simp)
  · rw [e] at h
    dsimp only at h
    injection h with h2
    have hrec : rec = setKey temp "classification" (Val.dict cls) := h2.symm
    refine ⟨cls, ?_, ?_⟩
    · rw [hrec, alookup_setKey_self]
    · intro col raw o hm hlf
      have hmm := processCols_mem row [] [] temp cls col raw o hm hlf e
      refine ⟨hmm.1, fun ho => ?_⟩
      rw [hrec, alookup_setKey_ne (lookupF_ne_classification hlf)]
      exact hmm.2 ho

/-- C6 witness: the sample record has a classification mapping holding the
kingdom field. -/
theorem c6_classification_routing_witness :
    ∃ m, alookup sampleRec "classification" = some (Val.dict m) ∧
      (alookup m "kingdom").isSome = true := by
  obtain ⟨m, hm, hall⟩ := c6_classification_routing sampleRow sampleRec rfl
  exact ⟨m, hm,
    (hall "kingdom_label" ("Animal".toList) "kingdom" (by decide) rfl).1 (by decide)⟩

/-- C7: for every mapped field other than the label, name and synonym
sources, a raw value equal to "NULL" cleans to the absent-value marker and
any other raw value cleans to itself with whitespace trimmed. -/
theorem c7_generic_field_cleaning (col : String) (raw : Str)
    (temp : List (String × Val)) (hmem : col ∈ fieldsKeys)
    (h1 : ¬ col = "rdf-schema#label") (h2 : ¬ col = "name")
    (h3 : ¬ col = "synonym") :
    cleanField col raw temp =
      some (if raw = nullString then Val.null else Val.str (pstrip raw)) := by
  unfold cleanField
  rw [if_neg h1, if_neg h2]
  by_cases hr : raw = nullString
  · rw [if_pos hr, if_pos hr]
  · rw [if_neg hr, if_neg h3, if_neg hr]

/-- C7 witness: the URI field converts "NULL" and trims any other value. -/
theorem c7_generic_field_cleaning_witness :
    cleanField "URI" nullString [] = some Val.null ∧
    cleanField "URI" (" x ".toList) [] = some (Val.str ("x".toList)) := by
  constructor
  · have h := c7_generic_field_cleaning "URI" nullString [] (by decide) (by decide)
      (by decide) (by decide)
    rw [h]
    rfl
  · have h := c7_generic_field_cleaning "URI" (" x ".toList) [] (by decide) (by decide)
      (by decide) (by decide)
    rw [h]
    rfl

/-- C8: a successful transform yields exactly one output record per input
row, in input order, and the record at every index is produced from the row
at the same index alone. -/
theorem c8_row_mapping (rows : List (List (String × Str)))
    (out : List (List (String × Val))) (h : process_file rows = some out) :
    out.length = rows.length ∧
    ∀ i (hi : i < rows.length) (ho : i < out.length),
      processRow rows[i] = some out[i] := by
  induction rows generalizing out with
  | nil =>
      unfold process_file at h
      injection h with h2
      subst h2
      exact ⟨rfl, fun i hi _ => absurd hi (by simp)⟩
  | cons r rs ih =>
      unfold process_file at h
      rcases e1 : processRow r with _ | t
      · rw [e1] at h
        exact absurd h (by simp)
      · rw [e1] at h
        rcases e2 : process_file rs with _ | ts
        · rw [e2] at h
          exact absurd h (by simp)
        · rw [e2] at h
          dsimp only at h
          injection h with h2
          subst h2
          obtain ⟨hlen, hidx⟩ := ih ts e2
          refine ⟨by simp [hlen], ?_⟩
          intro i hi ho
          cases i with
          | zero => exact e1
          | succ j =>
              have hj1 : j < rs.length := by simpa using hi
              have hj2 : j < ts.length := by simpa using ho
              exact hidx j hj1 hj2

/-- C8 witness: the two-row sample is transformed row by row in order. -/
theorem c8_row_mapping_witness :
    sampleOuts.length = sampleRows.length ∧
    processRow sampleRow = some sampleRec := by
  obtain ⟨hlen, hidx⟩ := c8_row_mapping sampleRows sampleOuts rfl
  exact ⟨hlen, hidx 0 (by decide) (by decide)⟩

/-- C9 counterexample: a synonym-source raw value consisting only of
punctuation (a period) with no bar delimiter cleans to a one-element
sequence containing that punctuation, not the empty string: only braces,
stars and whitespace are removed. -/
theorem c9_punctuation_preserved :
    process_synonym ([ '.' ]) = [[ '.' ]] ∧
    ¬ process_synonym ([ '.' ]) = [([] : Str)] := ⟨rfl, by decide⟩

/-- C9 (amended): a synonym-source raw value consisting only of whitespace
and/or the stripped characters (braces and stars), with no bar delimiter,
cleans to a single-element sequence containing the empty string, and this
is an accepted value of the synonym branch, not an error. -/
theorem c9_space_brace_star_empty (raw : Str) (temp : List (String × Val))
    (hall : ∀ c ∈ raw, isPySpace c = true ∨ c = '{' ∨ c = '}' ∨ c = '*')
    (hbar : ¬ '|' ∈ raw) :
    process_synonym raw = [([] : Str)] ∧
    cleanField "synonym" raw temp = some (Val.arr [([] : Str)]) := by
  have hps : process_synonym raw = [([] : Str)] := by
    unfold process_synonym
    have hfil :
        ∀ c ∈ pyRemoveChar (pyRemoveChar (pyRemoveChar raw '{') '}') '*',
          isPySpace c = true := by
      intro c hc
      have h3 := List.mem_filter.mp hc
      have h2 := List.mem_filter.mp h3.1
      have h1 := List.mem_filter.mp h2.1
      rcases hall c h1.1 with hw | hcur | hcur | hcur
      · exact hw
      · subst hcur
        exact absurd h1.2 (by simp)
      · subst hcur
        exact absurd h2.2 (by simp)
      · subst hcur
        exact absurd h3.2 (by simp)
    rw [pstrip_of_all_space hfil]
    rfl
  refine ⟨hps, ?_⟩
  have hnn : ¬ raw = nullString := by
    intro he
    subst he
    rcases hall 'N' (by decide) with h | h | h | h <;> revert h <;> decide
  unfold cleanField
  rw [if_neg (by decide), if_neg (by decide), if_neg hnn, if_pos rfl, hps]

/-- C9 witness: whitespace, braces and a star clean to a single empty
synonym. -/
theorem c9_space_brace_star_empty_witness :
    process_synonym ([' ', '{', '}', '*', ' ']) = [([] : Str)] ∧
    cleanField "synonym" ([' ', '{', '}', '*', ' ']) [] =
      some (Val.arr [([] : Str)]) :=
  c9_space_brace_star_empty [' ', '{', '}', '*', ' '] [] (by decide) (by decide)

/-- C10: an empty name-source raw value is kept as the empty string (it is
not "NULL" and contains no non-word character), not replaced by the cleaned
label. -/
theorem c10_empty_name_kept (lraw : Str) :
    processRow [("rdf-schema#label", lraw), ("name", ([] : Str))] =
      some [("label", Val.str (pstrip (process_rdf lraw))),
            ("name", Val.str ([] : Str)),
            ("classification", Val.dict [])] := rfl

end Processing
